import Mathlib

/-!
Verification of the document-redlining core of the NIDA-proj repository
(`src/api/app/services/ai_redlining.py`) against its natural-language
specification.

Text is modelled as `List Char` (Python `str`).  Paragraphs are lists of
nodes: plain formatted runs (`w:r`), native tracked-change deletion nodes
(`w:del`) and insertion nodes (`w:ins`).  As in python-docx, the visible
`paragraph.text` concatenates only the plain runs: text wrapped inside a
`w:del`/`w:ins` element is not a direct `w:r` child of the paragraph and
is therefore invisible to `paragraph.text` and `paragraph.runs`.
-/

/-- Python `str` is modelled as a list of characters. -/
abbrev Text := List Char

/-- Turn a Lean string literal into the `Text` model. -/
def str (s : String) : Text := s.data

/-- Python `\s` on the ASCII range (space, tab, newline, carriage return,
vertical tab, form feed); the service only handles such whitespace. -/
def isPySpace (c : Char) : Bool :=
  c = ' ' || c = '\t' || c = '\n' || c = '\r' || c = '\x0b' || c = '\x0c'

/-- Python `s.startswith(p)`. -/
def startsWith : Text → Text → Bool
  | _, [] => true
  | [], _ :: _ => false
  | c :: s, d :: t => c = d && startsWith s t

/-- Python `s.find(pat)`: index of the leftmost occurrence of `pat` in `s`. -/
def pyFind : Text → Text → Option Nat
  | [], pat => if pat = [] then some 0 else none
  | c :: t, pat =>
    if startsWith (c :: t) pat then some 0 else (pyFind t pat).map (· + 1)

/-- Python `pat in s` (substring containment). -/
def containsSub (s pat : Text) : Bool := (pyFind s pat).isSome

/-- Python `s.split(pat, 1)`: text before the first occurrence and,
when found, the text after it. -/
def splitOnce (s pat : Text) : Text × Option Text :=
  match pyFind s pat with
  | none => (s, none)
  | some i => (s.take i, some (s.drop (i + pat.length)))

/-- Fuel-driven worker for `pySplit`; each step consumes at least one
character of `s`, so `s.length` fuel is always enough. -/
def pySplitGo (pat : Text) : Nat → Text → List Text
  | 0, s => [s]
  | fuel + 1, s =>
    match pyFind s pat with
    | none => [s]
    | some i => s.take i :: pySplitGo pat fuel (s.drop (i + pat.length))

/-- Python `s.split(pat)` on all occurrences (call sites never pass an
empty separator, on which Python raises `ValueError`). -/
def pySplit (s pat : Text) : List Text :=
  if pat = [] then [s] else pySplitGo pat s.length s

/-- Fuel-driven worker for `replaceSub`. -/
def replaceSubGo (pat rep : Text) : Nat → Text → Text
  | 0, s => s
  | fuel + 1, s =>
    match pyFind s pat with
    | none => s
    | some i => s.take i ++ rep ++ replaceSubGo pat rep fuel (s.drop (i + pat.length))

/-- Python `s.replace(pat, rep)`: replace every non-overlapping leftmost
occurrence (call sites never pass an empty pattern). -/
def replaceSub (pat rep s : Text) : Text :=
  if pat = [] then s else replaceSubGo pat rep s.length s

/-- Python `s.lower()` (ASCII behaviour of `Char.toLower`). -/
def toLowerT (s : Text) : Text := s.map Char.toLower

/-- Python `s.upper()`. -/
def toUpperT (s : Text) : Text := s.map Char.toUpper

/-- Python `s.strip()`: remove whitespace from both ends. -/
def pyStrip (s : Text) : Text :=
  ((s.dropWhile isPySpace).reverse.dropWhile isPySpace).reverse

/-- Worker for `collapseWs`: `inRun` records whether the previous character
was whitespace (already emitted as the single replacement of the run). -/
def collapseWsGo (rep : Char) (inRun : Bool) : Text → Text
  | [] => []
  | c :: t =>
    if isPySpace c then
      if inRun then collapseWsGo rep true t else rep :: collapseWsGo rep true t
    else c :: collapseWsGo rep false t

/-- Python regex substitution of every maximal whitespace run (regex
pattern `\s+`) by a single space. -/
def collapseWs (s : Text) : Text := collapseWsGo ' ' false s

/-- Python regex substitution of every maximal whitespace run (regex
pattern `\s+`) by a single tab. -/
def wsRunsToTab (s : Text) : Text := collapseWsGo '\t' false s

/-- Python str.replace mapping each space to a tab. -/
def spacesToTabs (s : Text) : Text := s.map (fun c => if c = ' ' then '\t' else c)

/-- Python str.replace mapping each space to two spaces. -/
def spacesToDouble (s : Text) : Text :=
  s.flatMap (fun c => if c = ' ' then [' ', ' '] else [c])

/-- Python `s.count(c)` for a single character. -/
def countChar (s : Text) (c : Char) : Nat := s.countP (· = c)

/-! ## Document model -/

/-- RGB colour triple (python-docx `RGBColor`). -/
structure RGB where
  r : Nat
  g : Nat
  b : Nat
deriving DecidableEq, Repr

/-- Black, used for strikethrough deletions. -/
def rgbBlack : RGB := ⟨0, 0, 0⟩

/-- Red, used for underlined insertions. -/
def rgbRed : RGB := ⟨255, 0, 0⟩

/-- Run-level formatting (python-docx `run.font`); fields a fresh
`add_run` leaves unset are `false`/`none`. -/
structure Font where
  bold : Bool
  italic : Bool
  underline : Bool
  strike : Bool
  color : Option RGB
deriving DecidableEq, Repr

/-- Formatting of a freshly created run. -/
def Font.default : Font := ⟨false, false, false, false, none⟩

/-- A run: atomic unit of text plus formatting. -/
structure Run where
  text : Text
  font : Font
deriving DecidableEq, Repr

/-- Paragraph content node: a plain `w:r` run, a native tracked-change
deletion `w:del` (wrapping one run whose text is `w:delText`), or a native
insertion `w:ins`.  The python-docx `paragraph.runs`/`paragraph.text` see
only the plain `run` nodes: runs nested inside `w:del`/`w:ins` are not
direct `w:r` children of the paragraph. -/
inductive Node where
  | run : Run → Node
  | del : Run → Node
  | ins : Run → Node
deriving DecidableEq, Repr

/-- A paragraph is its ordered node list. -/
abbrev Paragraph := List Node

/-- Model of python-docx `paragraph.text`: concatenation of plain-run text. -/
def paraText : Paragraph → Text
  | [] => []
  | Node.run r :: ns => r.text ++ paraText ns
  | Node.del _ :: ns => paraText ns
  | Node.ins _ :: ns => paraText ns

/-- A run as produced by `paragraph.add_run(t)` with no formatting applied. -/
def mkRun (t : Text) : Run := ⟨t, Font.default⟩

/-- Deletion-styled run: black strikethrough (lines 1577-1579 / 1621-1623). -/
def strikeRun (t : Text) : Run :=
  ⟨t, ⟨false, false, false, true, some rgbBlack⟩⟩

/-- Insertion-styled run: red underline (lines 1583-1585 / 1626-1628). -/
def underRun (t : Text) : Run :=
  ⟨t, ⟨false, false, true, false, some rgbRed⟩⟩

/-- Apply `f` to the first list element on which it succeeds, leaving every
other element unchanged; `none` when `f` fails everywhere.  This is the
shape of every `for paragraph in doc.paragraphs: ...; break` search loop. -/
def applyFirst (f : α → Option α) : List α → Option (List α)
  | [] => none
  | x :: xs =>
    match f x with
    | some y => some (y :: xs)
    | none => (applyFirst f xs).map (x :: ·)

/-! ## AIRedliningService -/

namespace AIRedliningService

/-- Paragraph rebuild of the exact-match branch of
`AIRedliningService._replace_text_in_paragraph` (lines 1562-1591):
`clear()`, split once on `old`, then prefix run (only if non-empty),
black-strikethrough run carrying `old`, red-underline run carrying `new`,
and suffix run (only if non-empty). -/
def rebuildTracked (orig old new : Text) : Paragraph :=
  let parts := splitOnce orig old
  (if parts.1 ≠ [] then [Node.run (mkRun parts.1)] else []) ++
  [Node.run (strikeRun old), Node.run (underRun new)] ++
  (match parts.2 with
   | some a => if a ≠ [] then [Node.run (mkRun a)] else []
   | none => [])

/-- Paragraph rebuild of the case-insensitive branch (lines 1610-1632,
identical to `DocumentProcessor` lines 2205-2228): like `rebuildTracked`
but the suffix run is added whenever the split produced one, even when it
is empty (`if len(parts) > 1:` has no non-emptiness guard). -/
def rebuildTrackedCI (orig actual new : Text) : Paragraph :=
  let parts := splitOnce orig actual
  (if parts.1 ≠ [] then [Node.run (mkRun parts.1)] else []) ++
  [Node.run (strikeRun actual), Node.run (underRun new)] ++
  (match parts.2 with
   | some a => [Node.run (mkRun a)]
   | none => [])

/-- Model of `AIRedliningService._replace_text_in_paragraph` (lines 1554-1635),
non-exception path: on exact containment rebuild with visual track
changes; otherwise on case-insensitive containment extract the actual
casing from the paragraph and rebuild; otherwise fail (`None`). -/
def replace_text_in_paragraph (p : Paragraph) (old new : Text) :
    Option Paragraph :=
  let t := paraText p
  if containsSub t old then
    some (rebuildTracked t old new)
  else if containsSub (toLowerT t) (toLowerT old) then
    match pyFind (toLowerT t) (toLowerT old) with
    | some i => some (rebuildTrackedCI t ((t.drop i).take old.length) new)
    | none => none
  else none

/-- The three hard-coded whitespace variations tried by
`_find_text_with_whitespace` (lines 1531-1535), in order. -/
def wsVariations (search : Text) : List Text :=
  [spacesToTabs search, spacesToDouble search, wsRunsToTab search]

/-- Token of the flexible-whitespace pattern built at lines 1544-1545:
`re.escape(search)` followed by replacing every escaped space with `\s+`.
Every non-space character of the search text becomes a literal token and
every space becomes a `\s+` token. -/
inductive PTok where
  | lit : Char → PTok
  | ws : PTok
deriving DecidableEq, Repr

/-- Compile the search text to its pattern token list. -/
def toToks (search : Text) : List PTok :=
  search.map (fun c => if c = ' ' then PTok.ws else PTok.lit c)

/-- Greedy backtracking match of the token pattern against a prefix of `t`,
returning the number of characters matched (regex semantics of
`lit... \s+ lit...` anchored at the start of `t`: a `\s+` consumes as many
whitespace characters as possible, giving back on failure). -/
def matchToks : List PTok → Text → Option Nat
  | [], _ => some 0
  | PTok.lit _ :: _, [] => none
  | PTok.lit c :: ps, d :: t =>
    if c = d then (matchToks ps t).map (· + 1) else none
  | PTok.ws :: _, [] => none
  | PTok.ws :: ps, d :: t =>
    if isPySpace d then
      match matchToks (PTok.ws :: ps) t with
      | some n => some (n + 1)
      | none => (matchToks ps t).map (· + 1)
    else none
termination_by ps t => (t.length, ps.length)

/-- Model of `re.search`: leftmost match of the pattern in `t`, returning the
matched substring (`match.group(0)`). -/
def searchPat (toks : List PTok) : Text → Option Text
  | [] =>
    match matchToks toks [] with
    | some n => some (List.take n [])
    | none => none
  | c :: t' =>
    match matchToks toks (c :: t') with
    | some n => some ((c :: t').take n)
    | none => searchPat toks t'

/-- Model of `AIRedliningService._find_text_with_whitespace` (lines 1522-1552):
exact containment, then the three hard-coded whitespace variations, then
the flexible `\s+` pattern search; `None` when all fail. -/
def find_text_with_whitespace (ptext search : Text) : Option Text :=
  if containsSub ptext search then some search
  else
    match (wsVariations search).find? (fun v => containsSub ptext v) with
    | some v => some v
    | none => searchPat (toToks search) ptext

/-- Model of `AIRedliningService._apply_single_change` (lines 1465-1520) restricted
to the paragraph list of the document: empty operands fail; first pass applies
`_replace_text_in_paragraph` at the first paragraph containing `old`
exactly; second pass uses whitespace-normalised containment and
`_find_text_with_whitespace` to recover the actual text.  Returns the
updated paragraph list on success, `none` when the change was not
applied. -/
def apply_single_change (doc : List Paragraph) (old new : Text) :
    Option (List Paragraph) :=
  if old = [] || new = [] then none
  else
    match applyFirst (fun p =>
        if containsSub (paraText p) old then
          replace_text_in_paragraph p old new
        else none) doc with
    | some d => some d
    | none =>
      let normOld := collapseWs (pyStrip old)
      applyFirst (fun p =>
        if containsSub (collapseWs (pyStrip (paraText p))) normOld then
          match find_text_with_whitespace (paraText p) old with
          | some actual => replace_text_in_paragraph p actual new
          | none => none
        else none) doc

end AIRedliningService

/-! ## DocumentProcessor -/

namespace DocumentProcessor

/-- Run-level pass of `DocumentProcessor._replace_text_in_paragraph`
(lines 2144-2153): the first plain run containing `old` has every
occurrence replaced in place and is restyled with red underline; other
formatting of that run is kept, no deletion record is produced.  Nodes
wrapped in `w:del`/`w:ins` are not visited (`paragraph.runs` lists only
direct `w:r` children). -/
def runLevelReplace (old new : Text) : Paragraph → Option Paragraph
  | [] => none
  | Node.run r :: ns =>
    if containsSub r.text old then
      some (Node.run ⟨replaceSub old new r.text,
        ⟨r.font.bold, r.font.italic, true, r.font.strike, some rgbRed⟩⟩ :: ns)
    else (runLevelReplace old new ns).map (Node.run r :: ·)
  | n :: ns => (runLevelReplace old new ns).map (n :: ·)

/-- Paragraph-level rebuild of `DocumentProcessor._replace_text_in_paragraph`
(lines 2156-2190): `clear()`, split on ALL occurrences of `old`
(`split(old_text)` without a maxsplit — parts beyond `parts[1]` are
dropped), then prefix run (only if non-empty), a native `w:del` node whose
inner run carries strikethrough (copying bold/italic of the fresh default
run, lines 2282-2292), a native `w:ins` node whose inner run carries a
single red underline (lines 2327-2336), and `parts[1]` as a suffix run
whenever the split found the text, even when empty. -/
def rebuildNative (orig old new : Text) : Paragraph :=
  let parts := pySplit orig old
  (if parts.headD [] ≠ [] then [Node.run (mkRun (parts.headD []))] else []) ++
  [Node.del ⟨old, ⟨false, false, false, true, none⟩⟩,
   Node.ins ⟨new, ⟨false, false, true, false, some rgbRed⟩⟩] ++
  (match parts[1]? with
   | some a => [Node.run (mkRun a)]
   | none => [])

/-- Model of `DocumentProcessor._replace_text_in_paragraph` (lines 2140-2265),
non-exception path: run-level in-place replacement first, then the native
tracked-change rebuild on exact paragraph containment, then the
case-insensitive rebuild, else failure. -/
def replace_text_in_paragraph (p : Paragraph) (old new : Text) :
    Option Paragraph :=
  match runLevelReplace old new p with
  | some p' => some p'
  | none =>
    let t := paraText p
    if containsSub t old then some (rebuildNative t old new)
    else if containsSub (toLowerT t) (toLowerT old) then
      match pyFind (toLowerT t) (toLowerT old) with
      | some i =>
        some (AIRedliningService.rebuildTrackedCI t
          ((t.drop i).take old.length) new)
      | none => none
    else none

/-- The hard-coded `variations_to_search` list of
`DocumentProcessor._replace_text` (lines 2015-2036), in order. -/
def variationsToSearch (old : Text) : List Text :=
  [old,
   replaceSub (str " ") (str "") old,
   replaceSub (str ":") (str "") old,
   toLowerT old,
   toUpperT old,
   replaceSub (str "Company") (str "Comapny") old,
   replaceSub (str "Company") (str "company") old,
   str "For: Company",
   str "For:Company",
   str "For Company",
   str "for: company",
   str "FOR: COMPANY",
   str "For:  Company",
   str "For:   Company",
   str "For:    Company",
   str "For:\tCompany",
   str "For: \tCompany",
   str "For:\t Company",
   str "For: \t Company"]

/-- The fallback `variations` list of `DocumentProcessor._replace_text`
(lines 2089-2109), in order. -/
def variationsFallback (old : Text) : List Text :=
  [replaceSub (str "5") (str "five (5)") old,
   replaceSub (str "five (5)") (str "5") old,
   replaceSub (str "years") (str "year") old,
   replaceSub (str "year") (str "years") old,
   str "five (5) years",
   str "five years",
   str "5 year",
   str "five year",
   replaceSub (str "For: ") (str "") old,
   replaceSub (str "Company (name to be provided upon execution)") (str "Company") old,
   str "Company",
   str "For: Company",
   str "Company (name to be provided upon execution)",
   str "For: Company (name to be provided upon execution)",
   str "For: " ++ old,
   old ++ str " (name to be provided upon execution)",
   str "For: " ++ old ++ str " (name to be provided upon execution)"]

/-- Exact-match pass of `_replace_text` (lines 2048-2054). -/
def phaseExact (old new : Text) (p : Paragraph) : Option Paragraph :=
  if containsSub (paraText p) old then replace_text_in_paragraph p old new
  else none

/-- Inner variation loop of the whitespace-normalised pass
(lines 2076-2082): first listed variation contained in the paragraph that
`_replace_text_in_paragraph` accepts. -/
def tryVariations (new : Text) (p : Paragraph) : List Text → Option Paragraph
  | [] => none
  | v :: vs =>
    if containsSub (paraText p) v then
      match replace_text_in_paragraph p v new with
      | some p' => some p'
      | none => tryVariations new p vs
    else tryVariations new p vs

/-- Whitespace-normalised pass of `_replace_text` (lines 2057-2084):
case-insensitive containment of the whitespace-collapsed target in the
whitespace-collapsed paragraph, then exact replacement if possible, else
the `variations_to_search` list. -/
def phaseNorm (old new : Text) (p : Paragraph) : Option Paragraph :=
  if containsSub (toLowerT (collapseWs (pyStrip (paraText p))))
      (toLowerT (collapseWs (pyStrip old))) then
    if containsSub (paraText p) old then replace_text_in_paragraph p old new
    else tryVariations new p (variationsToSearch old)
  else none

/-- Fallback-variation pass of `_replace_text` (lines 2111-2122): for each
non-empty variation different from the target (strategy first, paragraph
second), apply at the first paragraph containing it. -/
def phaseVariations (old new : Text) (doc : List Paragraph) :
    List Text → Option (List Paragraph)
  | [] => none
  | v :: vs =>
    if v ≠ [] ∧ v ≠ old then
      match applyFirst (fun p =>
          if containsSub (paraText p) v then replace_text_in_paragraph p v new
          else none) doc with
      | some d => some d
      | none => phaseVariations old new doc vs
    else phaseVariations old new doc vs

/-- Case-insensitive pass of `_replace_text` (lines 2125-2133). -/
def phaseCI (old new : Text) (p : Paragraph) : Option Paragraph :=
  if containsSub (toLowerT (paraText p)) (toLowerT old) then
    replace_text_in_paragraph p old new
  else none

/-- Model of `DocumentProcessor._replace_text` (lines 1989-2138): the full cascade —
exact match, whitespace-normalised match, fallback variations,
case-insensitive match; the document is returned unchanged when every
pass fails. -/
def replace_text (doc : List Paragraph) (old new : Text) : List Paragraph :=
  match applyFirst (phaseExact old new) doc with
  | some d => d
  | none =>
    match applyFirst (phaseNorm old new) doc with
    | some d => d
    | none =>
      match phaseVariations old new doc (variationsFallback old) with
      | some d => d
      | none =>
        match applyFirst (phaseCI old new) doc with
        | some d => d
        | none => doc

/-- Model of `DocumentProcessor._replace_text_chunked` (lines 2357-2387): paragraphs
are visited in order (the chunking loop visits indices `0..n-1` and stops
at the first replacement); only EXACT containment is tried, and the result
of `_replace_text_in_paragraph` is not checked. -/
def replace_text_chunked (doc : List Paragraph) (old new : Text) :
    List Paragraph :=
  match doc with
  | [] => []
  | p :: ps =>
    if containsSub (paraText p) old then
      ((replace_text_in_paragraph p old new).getD p) :: ps
    else p :: replace_text_chunked ps old new

/-- Model of `DocumentProcessor._insert_text` (lines 2389-2396) and `_add_clause`
(lines 2433-2439): append a new paragraph carrying the text, styled red
underline (an empty text yields a paragraph with no runs). -/
def insert_text (doc : List Paragraph) (t : Text) : List Paragraph :=
  doc ++ [if t = [] then [] else [Node.run ⟨t, ⟨false, false, true, false, some rgbRed⟩⟩]]

/-- Model of `DocumentProcessor._delete_text` (lines 2407-2414): EVERY paragraph
containing the text has it removed (the `.text` setter rebuilds the
paragraph as one default run) and the rebuilt run struck through. -/
def delete_text (doc : List Paragraph) (t : Text) : List Paragraph :=
  doc.map (fun p =>
    if containsSub (paraText p) t then
      [Node.run ⟨replaceSub t [] (paraText p), ⟨false, false, false, true, none⟩⟩]
    else p)

end DocumentProcessor

/-! ## Modification records and the validator (in `analyze_document`) -/

/-- A planner modification as a Python dict: absent keys are `none`
(subscripting an absent key raises `KeyError`; the `get` accessor
yields the default). -/
structure PyMod where
  type : Option Text
  sectionTag : Option Text
  current_text : Option Text
  new_text : Option Text
deriving DecidableEq, Repr

/-- Lookup `current_text` with an empty-string default. -/
def PyMod.cur (m : PyMod) : Text := m.current_text.getD []

/-- Lookup `new_text` with an empty-string default. -/
def PyMod.new (m : PyMod) : Text := m.new_text.getD []

/-- The twelve month names tested at line 159. -/
def months : List Text :=
  [str "January", str "February", str "March", str "April", str "May",
   str "June", str "July", str "August", str "September", str "October",
   str "November", str "December"]

/-- The `forbidden_words` list of line 168. -/
def forbiddenWords : List Text :=
  [str "company", str "agreement", str "confidentiality", str "nda",
   str "business", str "dear", str "name", str "for:", str "by:",
   str "title:", str "effective", str "mutual"]

/-- An apostrophe character, used to build the quoted-context literals. -/
def apos : Char := '\''

/-- The `invalid_contexts` list of lines 189-199. -/
def invalidContexts : List Text :=
  [str "(the \"Company\")",
   str "(the " ++ [apos] ++ str "Company" ++ [apos] ++ str ")",
   str "the Company",
   str "concerning the Company",
   str "regarding the Company",
   str "about the Company",
   str "of the Company",
   str "business (the",
   str "machining business"]

/-- The `valid_contexts` list of line 202. -/
def validContexts : List Text :=
  [str "For: Company", str "For:\tCompany", str "For: \tCompany",
   str "Company (name to be provided upon execution)"]

/-- Condition `is_pure_date` (lines 169-173): stripped target shorter than 25
characters, exactly one comma in the raw target, and no forbidden word in
its lowercase form. -/
def isPureDate (cur : Text) : Bool :=
  decide ((pyStrip cur).length < 25) && decide (countChar cur ',' = 1) &&
  !(forbiddenWords.any (fun w => containsSub (toLowerT cur) w))

/-- Condition `has_date_label` (line 176): the stripped target starts with one of
the explicit date labels. -/
def hasDateLabel (cur : Text) : Bool :=
  [str "Date:", str "Dated:", str "DATE:", str "DATED:"].any
    (fun l => startsWith (pyStrip cur) l)

/-- Date-placeholder rejection (lines 157-184): a replacement containing a
month name is rejected unless the target is a pure date pattern or carries
an explicit date label. -/
def dateReject (cur new : Text) : Bool :=
  months.any (fun mo => containsSub new mo) && !(isPureDate cur) &&
  !(hasDateLabel cur)

/-- Company-context rejection (lines 186-207): a target containing
`Company` is rejected when it contains a defining context, or when it is
not a known safe signature label and is longer than 20 characters. -/
def companyReject (cur : Text) : Bool :=
  if containsSub cur (str "Company") then
    let isInvalid := invalidContexts.any (fun ctx => containsSub cur ctx)
    let isValid := validContexts.any (fun v =>
      pyStrip cur = v || startsWith (pyStrip cur) v)
    isInvalid || (!isValid && decide (cur.length > 20))
  else false

/-- The rejection loop of `analyze_document` (lines 152-214): flagged
indices are collected (the date check `continue`s past the company check)
and popped in reverse, which removes exactly the modifications matching
either rejection predicate, preserving the order of the rest. -/
def rejectFilter (mods : List PyMod) : List PyMod :=
  mods.filter (fun m => !(dateReject m.cur m.new || companyReject m.cur))

/-! ## Duplicate suppression of the term modification (lines 389-455) -/

/-- Decimal rendering of the extracted target duration. -/
def numText (n : Nat) : Text := (Nat.repr n).data

/-- The `word_to_num` table of lines 401-404. -/
def wordForm : Nat → Option Text
  | 1 => some (str "one")
  | 2 => some (str "two")
  | 3 => some (str "three")
  | 4 => some (str "four")
  | 5 => some (str "five")
  | 6 => some (str "six")
  | 7 => some (str "seven")
  | 8 => some (str "eight")
  | 9 => some (str "nine")
  | 10 => some (str "ten")
  | _ => none

/-- Value `target_years_text` (line 389), e.g. `"2 (2) years"` for 2. -/
def targetYearsText (n : Nat) : Text :=
  numText n ++ str " (" ++ numText n ++ str ") years"

/-- Value `target_years_simple` (line 390), e.g. `"2 years"`. -/
def targetYearsSimple (n : Nat) : Text := numText n ++ str " years"

/-- List `target_patterns_in_doc` (lines 393-410). -/
def targetPatterns (n : Nat) : List Text :=
  [toLowerT (targetYearsText n),
   toLowerT (targetYearsSimple n),
   toLowerT (numText n ++ str " (" ++ numText n ++ str ") year"),
   toLowerT (numText n ++ str " year")] ++
  (match wordForm n with
   | some w =>
     [toLowerT (w ++ str " (" ++ numText n ++ str ") years"),
      toLowerT (w ++ str " years")]
   | none => [])

/-- Condition `doc_already_has_target` (lines 413-416). -/
def docAlreadyHasTarget (n : Nat) (docText : Text) : Bool :=
  (targetPatterns n).any (fun p => containsSub (toLowerT docText) p)

/-- The modification synthesised at lines 439-455. -/
def synthTermMod (n : Nat) (cur : Text) : PyMod :=
  ⟨some (str "TEXT_REPLACE"), some (str "term"), some cur,
   some (targetYearsText n)⟩

/-- The term-modification stage of `analyze_document` (lines 392-455):
when the document already contains the target duration, drop every term
modification whose replacement contains the numeral forms of the target;
otherwise, synthesise a `three years` modification when the document
mentions one and no modification addresses it. -/
def termStage (n : Nat) (docText : Text) (mods : List PyMod) : List PyMod :=
  if docAlreadyHasTarget n docText then
    mods.filter (fun m =>
      !(m.sectionTag = some (str "term") &&
        (containsSub (toLowerT m.new) (toLowerT (targetYearsText n)) ||
         containsSub (toLowerT m.new) (toLowerT (targetYearsSimple n)))))
  else
    if containsSub (toLowerT docText) (str "three years") &&
       !(mods.any (fun m =>
          containsSub (toLowerT m.cur) (str "three years") ||
          containsSub (toLowerT m.cur) (str "three (3) years"))) then
      if containsSub docText (str "three years") then
        mods ++ [synthTermMod n (str "three years")]
      else if containsSub docText (str "three (3) years") then
        mods ++ [synthTermMod n (str "three (3) years")]
      else mods
    else mods

/-! ## Batch processing -/

namespace DocumentProcessor

/-- One iteration of `DocumentProcessor._apply_modifications`
(lines 1950-1963): dispatch on the `type` key; a `KeyError` from a missing
key (or an unknown type) is caught by the surrounding
`except ... continue`, leaving the document unchanged. -/
def apply_mod_step (doc : List Paragraph) (m : PyMod) : List Paragraph :=
  if m.type = some (str "TEXT_REPLACE") then
    match m.current_text, m.new_text with
    | some c, some n => replace_text doc c n
    | _, _ => doc
  else if m.type = some (str "TEXT_INSERT") then
    match m.new_text with
    | some n => insert_text doc n
    | none => doc
  else if m.type = some (str "TEXT_DELETE") then
    match m.current_text with
    | some c => delete_text doc c
    | none => doc
  else if m.type = some (str "CLAUSE_ADD") then
    match m.new_text with
    | some n => insert_text doc n
    | none => doc
  else doc

/-- Model of `DocumentProcessor._apply_modifications` (lines 1948-1963): every
modification is attempted in list order; failures and exceptions never
abort the loop. -/
def apply_modifications (doc : List Paragraph) (mods : List PyMod) :
    List Paragraph :=
  mods.foldl apply_mod_step doc

end DocumentProcessor

/-! ## Document blocks and `DocumentProcessor.apply_accepted_changes` -/

/-- A body-level block: a paragraph or a table of rows of cells, each cell
holding its own paragraphs. -/
inductive Block where
  | para : Paragraph → Block
  | table : List (List (List Paragraph)) → Block

/-- Model of `doc.paragraphs`: top-level body paragraphs only (python-docx does not
include table-cell paragraphs here). -/
def bodyParas : List Block → List Paragraph
  | [] => []
  | Block.para p :: bs => p :: bodyParas bs
  | Block.table _ :: bs => bodyParas bs

/-- All table-cell paragraphs, in table/row/cell order. -/
def tableParas : List Block → List Paragraph
  | [] => []
  | Block.para _ :: bs => tableParas bs
  | Block.table rows :: bs =>
    (rows.flatMap (fun row => row.flatMap id)) ++ tableParas bs

/-- The `all_paragraphs` list built at lines 2617-2622: all body
paragraphs first, then every table-cell paragraph — not interleaved
document order. -/
def allParagraphsFlat (d : List Block) : List Paragraph :=
  bodyParas d ++ tableParas d

namespace DocumentProcessor

/-- Paragraph walk of one change in
`DocumentProcessor.apply_accepted_changes` (lines 2635-2647).  For a
paragraph not containing `cur` exactly, line 2641 calls
`self._find_text_with_whitespace` — a method `DocumentProcessor` does not
define (it exists only on `AIRedliningService`), so an `AttributeError` is
raised and caught by the per-change handler at line 2652: the walk stops
and the change is abandoned with every remaining paragraph untouched. -/
def accepted_change_walk (cur new : Text) : List Paragraph →
    List Paragraph × Bool
  | [] => ([], false)
  | p :: ps =>
    if containsSub (paraText p) cur then
      match replace_text_in_paragraph p cur new with
      | some p' => (p' :: ps, true)
      | none =>
        let r := accepted_change_walk cur new ps
        (p :: r.1, r.2)
    else (p :: ps, false)

/-- One accepted change in `DocumentProcessor.apply_accepted_changes`
(lines 2625-2654): empty operands are skipped, then the flattened
paragraph list is walked. -/
def apply_accepted_change (paras : List Paragraph) (cur new : Text) :
    List Paragraph × Bool :=
  if cur = [] || new = [] then (paras, false)
  else accepted_change_walk cur new paras

end DocumentProcessor

/-- The spec scenario document. -/
def scnDoc0 : List Paragraph :=
  [[Node.run (mkRun (str "Confidentiality survives for three years."))]]

/-- The document after one successful apply of the scenario modification:
the struck-through old text is still part of the visible paragraph text. -/
def scnDoc1 : List Paragraph :=
  [[Node.run (mkRun (str "Confidentiality survives for ")),
    Node.run (strikeRun (str "three years")),
    Node.run (underRun (str "two (2) years")),
    Node.run (mkRun (str "."))]]

/-- A bold-formatted run, standing for pre-existing prefix/suffix
formatting. -/
def boldFont : Font := ⟨true, false, false, false, none⟩

/-- Relation `WsVar target v`: `v` is a whitespace variant of `target`, obtained by
replacing every single space of `target` with some non-empty whitespace
run and keeping every other character verbatim. -/
inductive WsVar : Text → Text → Prop where
  | nil : WsVar [] []
  | lit {c : Char} {t v : Text} : isPySpace c = false → WsVar t v →
      WsVar (c :: t) (c :: v)
  | gap {t v : Text} {w : Text} : w ≠ [] → (∀ c ∈ w, isPySpace c = true) →
      WsVar t v → WsVar (' ' :: t) (w ++ v)

/-- No two adjacent spaces. -/
def noDoubleSpace : Text → Bool
  | [] => true
  | [_] => true
  | c :: d :: t => !(c = ' ' && d = ' ') && noDoubleSpace (d :: t)

/-! ## Basic lemmas about the text primitives -/

theorem startsWith_iff {s p : Text} :
    startsWith s p = true ↔ ∃ r, s = p ++ r := by
  induction p generalizing s with
  | nil => simp [startsWith]
  | cons d t ih =>
    cases s with
    | nil => simp [startsWith]
    | cons c s' =>
      simp only [startsWith, Bool.and_eq_true, decide_eq_true_eq, ih]
      constructor
      · rintro ⟨rfl, r, rfl⟩
        exact ⟨r, rfl⟩
      · rintro ⟨r, h⟩
        cases h
        exact ⟨rfl, r, rfl⟩

theorem pyFind_decomp {s pat : Text} {i : Nat} (h : pyFind s pat = some i) :
    s = s.take i ++ pat ++ s.drop (i + pat.length) := by
  induction s generalizing i with
  | nil =>
    simp only [pyFind] at h
    split at h
    · rename_i hp
      cases h
      simp [hp]
    · cases h
  | cons c s' ih =>
    simp only [pyFind] at h
    split at h
    · rename_i hs
      cases h
      obtain ⟨r, hr⟩ := startsWith_iff.mp hs
      simp only [List.take_zero, Nat.zero_add, List.nil_append]
      rw [hr, List.drop_left]
    · rename_i hs
      cases hfind : pyFind s' pat with
      | none => rw [hfind] at h; cases h
      | some j =>
        rw [hfind] at h
        simp only [Option.map_some'] at h
        cases h
        have := ih hfind
        calc c :: s' = c :: (s'.take j ++ pat ++ s'.drop (j + pat.length)) := by rw [← this]
        _ = (c :: s').take (j + 1) ++ pat ++ (c :: s').drop (j + 1 + pat.length) := by
            simp [List.take_cons, Nat.add_right_comm]

theorem containsSub_decomp {s pat : Text} (h : containsSub s pat = true) :
    ∃ a b, s = a ++ pat ++ b := by
  unfold containsSub at h
  cases hf : pyFind s pat with
  | none => rw [hf] at h; cases h
  | some i => exact ⟨s.take i, s.drop (i + pat.length), pyFind_decomp hf⟩

theorem pyFind_nil_pat (s : Text) : pyFind s [] = some 0 := by
  cases s <;> simp [pyFind, startsWith]

theorem containsSub_of_decomp (a pat b : Text) :
    containsSub (a ++ pat ++ b) pat = true := by
  induction a with
  | nil =>
    simp only [List.nil_append]
    cases pat with
    | nil => simp [containsSub, pyFind_nil_pat]
    | cons c t =>
      have hs : startsWith (c :: (t ++ b)) (c :: t) = true :=
        startsWith_iff.mpr ⟨b, by simp⟩
      simp only [containsSub, List.cons_append, pyFind]
      simp [hs]
  | cons c a' ih =>
    simp only [containsSub, List.cons_append, pyFind]
    split
    · simp
    · simpa [containsSub] using ih

theorem pyFind_le_length {s pat : Text} {i : Nat}
    (h : pyFind s pat = some i) : i ≤ s.length := by
  induction s generalizing i with
  | nil =>
    simp only [pyFind] at h
    split at h
    · cases h; simp
    · cases h
  | cons c t ih =>
    simp only [pyFind] at h
    split at h
    · cases h; simp
    · cases hf : pyFind t pat with
      | none => rw [hf] at h; cases h
      | some j =>
        rw [hf] at h
        simp only [Option.map_some'] at h
        cases h
        simpa using Nat.succ_le_succ (ih hf)

theorem containsSub_trans {s m pat : Text} (h1 : containsSub s m = true)
    (h2 : containsSub m pat = true) : containsSub s pat = true := by
  obtain ⟨a, b, rfl⟩ := containsSub_decomp h1
  obtain ⟨c, d, rfl⟩ := containsSub_decomp h2
  have : a ++ (c ++ pat ++ d) ++ b = (a ++ c) ++ pat ++ (d ++ b) := by simp
  rw [this]
  exact containsSub_of_decomp _ _ _

theorem splitOnce_decomp {s pat : Text} (h : containsSub s pat = true) :
    ∃ b a, splitOnce s pat = (b, some a) ∧ s = b ++ pat ++ a := by
  unfold containsSub at h
  cases hf : pyFind s pat with
  | none => rw [hf] at h; cases h
  | some i =>
    refine ⟨s.take i, s.drop (i + pat.length), ?_, pyFind_decomp hf⟩
    simp [splitOnce, hf]

theorem toLowerT_append (a b : Text) :
    toLowerT (a ++ b) = toLowerT a ++ toLowerT b := by
  simp [toLowerT]

theorem containsSub_toLowerT {s pat : Text} (h : containsSub s pat = true) :
    containsSub (toLowerT s) (toLowerT pat) = true := by
  obtain ⟨a, b, rfl⟩ := containsSub_decomp h
  rw [toLowerT_append, toLowerT_append]
  exact containsSub_of_decomp _ _ _

theorem pyFind_startsWith_drop {s pat : Text} {i : Nat}
    (h : pyFind s pat = some i) : startsWith (s.drop i) pat = true := by
  have hd := pyFind_decomp h
  apply startsWith_iff.mpr
  refine ⟨s.drop (i + pat.length), ?_⟩
  have hle := pyFind_le_length h
  conv_lhs => rw [hd]
  rw [List.append_assoc,
    List.drop_left' (by simp [List.length_take, Nat.min_eq_left hle])]

/-- The extracted `actual` text of a case-insensitive match lowercases to
the lowercase search text. -/
theorem actual_toLowerT {t old : Text} {i : Nat}
    (h : pyFind (toLowerT t) (toLowerT old) = some i) :
    toLowerT ((t.drop i).take old.length) = toLowerT old := by
  obtain ⟨r, hr⟩ := startsWith_iff.mp (pyFind_startsWith_drop h)
  have hlen : old.length = (toLowerT old).length := by simp [toLowerT]
  calc toLowerT ((t.drop i).take old.length)
      = ((toLowerT t).drop i).take old.length := by
        simp [toLowerT, List.map_take, List.map_drop]
    _ = (toLowerT old ++ r).take old.length := by rw [← hr]
    _ = toLowerT old := by rw [hlen, List.take_left]

/-- Pure list fact: the `actual` slice really occurs in the paragraph. -/
theorem slice_decomp (t : Text) (i n : Nat) :
    t = t.take i ++ ((t.drop i).take n ++ (t.drop i).drop n) := by
  rw [List.take_append_drop, List.take_append_drop]

/-- Any take-of-drop slice of a text is contained in it. -/
theorem containsSub_slice (s : Text) (i n : Nat) :
    containsSub s ((s.drop i).take n) = true := by
  have h := slice_decomp s i n
  generalize hb : s.take i = b at h
  generalize hx : (s.drop i).take n = x at h ⊢
  generalize hc : (s.drop i).drop n = c at h
  rw [h, ← List.append_assoc]
  exact containsSub_of_decomp b x c

/-! ## Lemmas about the service-level paragraph rebuild -/

theorem paraText_append (xs ys : Paragraph) :
    paraText (xs ++ ys) = paraText xs ++ paraText ys := by
  induction xs with
  | nil => simp [paraText]
  | cons n ns ih => cases n <;> simp [paraText, ih]

theorem paraText_shape (b old new a : Text) :
    paraText ((if b ≠ [] then [Node.run (mkRun b)] else []) ++
      [Node.run (strikeRun old), Node.run (underRun new)] ++
      (if a ≠ [] then [Node.run (mkRun a)] else [])) =
    b ++ old ++ new ++ a := by
  split <;> split <;>
    simp_all [paraText, paraText_append, mkRun, strikeRun, underRun]

theorem paraText_shapeCI (b actual new a : Text) :
    paraText ((if b ≠ [] then [Node.run (mkRun b)] else []) ++
      [Node.run (strikeRun actual), Node.run (underRun new)] ++
      [Node.run (mkRun a)]) =
    b ++ actual ++ new ++ a := by
  split <;>
    simp_all [paraText, paraText_append, mkRun, strikeRun, underRun]

theorem rebuildTracked_eq {orig old : Text} {b a : Text} (new : Text)
    (hsp : splitOnce orig old = (b, some a)) :
    AIRedliningService.rebuildTracked orig old new =
      (if b ≠ [] then [Node.run (mkRun b)] else []) ++
      [Node.run (strikeRun old), Node.run (underRun new)] ++
      (if a ≠ [] then [Node.run (mkRun a)] else []) := by
  simp [AIRedliningService.rebuildTracked, hsp]

theorem rebuildTrackedCI_eq {orig actual : Text} {b a : Text} (new : Text)
    (hsp : splitOnce orig actual = (b, some a)) :
    AIRedliningService.rebuildTrackedCI orig actual new =
      (if b ≠ [] then [Node.run (mkRun b)] else []) ++
      [Node.run (strikeRun actual), Node.run (underRun new)] ++
      [Node.run (mkRun a)] := by
  simp [AIRedliningService.rebuildTrackedCI, hsp]

/-! ## Claim C1 -/

/-- Claim C1, counterexample: with the `DocumentProcessor` applier (cited
source `DocumentProcessor._replace_text_in_paragraph`, lines 2140-2231), a
paragraph whose single run contains the target verbatim is rewritten IN
PLACE by the run-level branch: the apply succeeds, but the resulting
paragraph contains no strikethrough run (nor deletion node) carrying the
target text — the old text is silently overwritten, refuting the claimed
postcondition at this concrete input. -/
theorem C1_counterexample :
    DocumentProcessor.replace_text_in_paragraph
      [Node.run (mkRun (str "Confidentiality survives for three years."))]
      (str "three years") (str "two (2) years") =
    some [Node.run ⟨str "Confidentiality survives for two (2) years.",
      ⟨false, false, true, false, some rgbRed⟩⟩] ∧
    (DocumentProcessor.replace_text_in_paragraph
      [Node.run (mkRun (str "Confidentiality survives for three years."))]
      (str "three years") (str "two (2) years")).map
      (fun q => q.any (fun nd =>
        match nd with
        | Node.run r => r.font.strike && decide (r.text = str "three years")
        | Node.del r => decide (r.text = str "three years")
        | Node.ins _ => false)) = some false := by
  constructor
  · decide
  · decide

/-- Claim C1, amended: with the `AIRedliningService` applier
(`AIRedliningService._replace_text_in_paragraph`), the claim holds: for
every paragraph containing the target verbatim and non-empty replacement,
the apply succeeds and the paragraph becomes the untouched prefix text,
a black-strikethrough run carrying exactly the target, immediately
followed by a red-underline run carrying exactly the replacement, then the
untouched suffix text.  The `DocumentProcessor` applier instead rewrites a
matching run in place with no visible deletion. -/
theorem C1_service_applier_tracks_changes (p : Paragraph) (old new : Text)
    (hnew : new ≠ [])
    (hc : containsSub (paraText p) old = true) :
    ∃ b a, paraText p = b ++ old ++ a ∧
      AIRedliningService.replace_text_in_paragraph p old new =
        some ((if b ≠ [] then [Node.run (mkRun b)] else []) ++
          [Node.run (strikeRun old), Node.run (underRun new)] ++
          (if a ≠ [] then [Node.run (mkRun a)] else [])) := by
  obtain ⟨b, a, hsp, hdec⟩ := splitOnce_decomp hc
  refine ⟨b, a, hdec, ?_⟩
  rw [AIRedliningService.replace_text_in_paragraph]
  simp only [hc, if_true]
  rw [rebuildTracked_eq new hsp]

/-- Claim C1, witness: the amended theorem applied to the scenario
paragraph of the spec. -/
theorem C1_witness :
    ∃ b a,
      paraText [Node.run (mkRun (str "Confidentiality survives for three years."))] =
        b ++ str "three years" ++ a ∧
      AIRedliningService.replace_text_in_paragraph
        [Node.run (mkRun (str "Confidentiality survives for three years."))]
        (str "three years") (str "two (2) years") =
      some ((if b ≠ [] then [Node.run (mkRun b)] else []) ++
        [Node.run (strikeRun (str "three years")),
         Node.run (underRun (str "two (2) years"))] ++
        (if a ≠ [] then [Node.run (mkRun a)] else [])) :=
  C1_service_applier_tracks_changes _ _ _ (by decide) (by decide)

/-! ## Claim C2 -/

/-- Claim C2, counterexample: after one successful apply of the scenario
modification, a second apply of the identical modification against the
resulting document does NOT yield `NotFound`: it finds the struck-through
old text again, succeeds, and duplicates the insertion text in the
paragraph. -/
theorem C2_counterexample :
    AIRedliningService.apply_single_change scnDoc0
      (str "three years") (str "two (2) years") = some scnDoc1 ∧
    (AIRedliningService.apply_single_change scnDoc1
      (str "three years") (str "two (2) years")).isSome = true ∧
    (AIRedliningService.apply_single_change scnDoc1
      (str "three years") (str "two (2) years")).map
      (fun d => containsSub (paraText (d.headD []))
        (str "two (2) yearstwo (2) years")) = some true := by
  refine ⟨by decide, by decide, by decide⟩

/-- Claim C2, amended: a successful apply is never idempotent-to-NotFound:
whenever `AIRedliningService._replace_text_in_paragraph` succeeds on a
paragraph, applying the identical replacement to the resulting paragraph
succeeds AGAIN (the black-strikethrough deletion run keeps the old text
inside the visible paragraph text), inserting a duplicate
deletion/insertion pair rather than returning `NotFound`. -/
theorem C2_second_apply_succeeds_again (p p' : Paragraph) (old new : Text)
    (h : AIRedliningService.replace_text_in_paragraph p old new = some p') :
    AIRedliningService.replace_text_in_paragraph p' old new ≠ none := by
  by_cases h1 : containsSub (paraText p) old = true
  · -- exact-match branch: p' is the tracked rebuild
    obtain ⟨b, a, hsp, hdec⟩ := splitOnce_decomp h1
    have hp' : p' = AIRedliningService.rebuildTracked (paraText p) old new := by
      rw [AIRedliningService.replace_text_in_paragraph] at h
      simp only [h1, if_true, Option.some_inj] at h
      exact h.symm
    have htext : paraText p' = b ++ old ++ (new ++ a) := by
      rw [hp', rebuildTracked_eq new hsp, paraText_shape]
      simp
    have hcon : containsSub (paraText p') old = true := by
      rw [htext]
      exact containsSub_of_decomp b old (new ++ a)
    rw [AIRedliningService.replace_text_in_paragraph]
    simp [hcon]
  · -- case-insensitive branch
    have h2 : containsSub (toLowerT (paraText p)) (toLowerT old) = true := by
      by_contra h2
      rw [AIRedliningService.replace_text_in_paragraph] at h
      simp only [h1] at h
      simp only [Bool.not_eq_true] at h2
      simp [h2] at h
    cases hf : pyFind (toLowerT (paraText p)) (toLowerT old) with
    | none => exact absurd h2 (by simp [containsSub, hf])
    | some i =>
      have h1' : containsSub (paraText p) old = false := by
        revert h1
        cases containsSub (paraText p) old <;> simp
      have hp' : p' = AIRedliningService.rebuildTrackedCI (paraText p)
          (((paraText p).drop i).take old.length) new := by
        rw [AIRedliningService.replace_text_in_paragraph] at h
        simp [h1', h2, hf] at h
        exact h.symm
      -- the actual slice occurs in the paragraph text
      have hocc : containsSub (paraText p)
          (((paraText p).drop i).take old.length) = true :=
        containsSub_slice (paraText p) i old.length
      obtain ⟨b, a, hsp, hdec⟩ := splitOnce_decomp hocc
      have htext : paraText p' =
          b ++ ((paraText p).drop i).take old.length ++ (new ++ a) := by
        rw [hp', rebuildTrackedCI_eq new hsp, paraText_shapeCI]
        simp
      rw [AIRedliningService.replace_text_in_paragraph]
      by_cases hx : containsSub (paraText p') old = true
      · simp [hx]
      · have hlow : containsSub (toLowerT (paraText p')) (toLowerT old) = true := by
          rw [htext, toLowerT_append, toLowerT_append, actual_toLowerT hf]
          exact containsSub_of_decomp _ _ _
        cases hf2 : pyFind (toLowerT (paraText p')) (toLowerT old) with
        | none => exact absurd hlow (by simp [containsSub, hf2])
        | some j =>
          simp only [Bool.not_eq_true] at hx
          simp [hx, hlow, hf2]

/-- Claim C2, witness: the amended theorem applied to the scenario
paragraph after its first apply. -/
theorem C2_witness :
    AIRedliningService.replace_text_in_paragraph (scnDoc1.headD [])
      (str "three years") (str "two (2) years") ≠ none :=
  C2_second_apply_succeeds_again (scnDoc0.headD []) _ _ _ (by decide)

/-! ## Claim C8 -/

/-- Claim C8, code-bug evaluation: `_replace_text_in_paragraph` documents
itself as "Replace text in a paragraph while preserving formatting" and
the spec requires the untouched prefix/suffix to retain their original
run formatting, but the rebuild uses `paragraph.clear()` followed by bare
`add_run` calls: at this input the single original run is
bold, yet the rebuilt prefix and suffix runs come back with default
(non-bold) formatting. -/
theorem C8_formatting_dropped :
    AIRedliningService.replace_text_in_paragraph
      [Node.run ⟨str "Hello three years world", boldFont⟩]
      (str "three years") (str "two (2) years") =
    some [Node.run (mkRun (str "Hello ")),
          Node.run (strikeRun (str "three years")),
          Node.run (underRun (str "two (2) years")),
          Node.run (mkRun (str " world"))] ∧
    boldFont.bold = true ∧ (mkRun (str "Hello ")).font.bold = false := by
  refine ⟨by decide, by decide, by decide⟩

/-! ## Claim C3 -/

theorem dp_rtip_isSome {p : Paragraph} {old : Text} (new : Text)
    (hc : containsSub (paraText p) old = true) :
    (DocumentProcessor.replace_text_in_paragraph p old new).isSome = true := by
  rw [DocumentProcessor.replace_text_in_paragraph]
  cases hrl : DocumentProcessor.runLevelReplace old new p with
  | some q => simp
  | none => simp [hc]

theorem applyFirst_phaseExact (old new : Text) :
    ∀ doc : List Paragraph,
      doc.any (fun p => containsSub (paraText p) old) = true →
      applyFirst (DocumentProcessor.phaseExact old new) doc =
        some (DocumentProcessor.replace_text_chunked doc old new) := by
  intro doc
  induction doc with
  | nil => simp
  | cons p ps ih =>
    intro hany
    by_cases hc : containsSub (paraText p) old = true
    · obtain ⟨q, hq⟩ := Option.isSome_iff_exists.mp (dp_rtip_isSome new hc)
      simp [applyFirst, DocumentProcessor.phaseExact, hc,
        DocumentProcessor.replace_text_chunked, hq]
    · have hany' : ps.any (fun p => containsSub (paraText p) old) = true := by
        simpa [hc] using hany
      simp [applyFirst, DocumentProcessor.phaseExact, hc,
        DocumentProcessor.replace_text_chunked, ih hany']

/-- Claim C3, amended: chunked and unchunked replacement agree whenever
some paragraph contains the target exactly (both then rewrite the first
such paragraph identically); they diverge when only a cascade strategy
matches, which only the unchunked `_replace_text` applies. -/
theorem C3_chunked_agrees_on_exact_match (doc : List Paragraph)
    (old new : Text)
    (h : doc.any (fun p => containsSub (paraText p) old) = true) :
    DocumentProcessor.replace_text doc old new =
      DocumentProcessor.replace_text_chunked doc old new := by
  rw [DocumentProcessor.replace_text, applyFirst_phaseExact old new doc h]

/-- Claim C3, counterexample: the target appears only in upper case, so
the unchunked cascade rewrites the paragraph through the
`variations_to_search` upper-case variation while the chunked variant —
which only attempts exact containment — leaves the document unchanged:
the two execution strategies produce different final paragraph text. -/
theorem C3_counterexample :
    DocumentProcessor.replace_text
      [[Node.run (mkRun (str "SURVIVES FOR THREE YEARS."))]]
      (str "three years") (str "2 (2) years") =
      [[Node.run ⟨str "SURVIVES FOR 2 (2) years.",
        ⟨false, false, true, false, some rgbRed⟩⟩]] ∧
    DocumentProcessor.replace_text_chunked
      [[Node.run (mkRun (str "SURVIVES FOR THREE YEARS."))]]
      (str "three years") (str "2 (2) years") =
      [[Node.run (mkRun (str "SURVIVES FOR THREE YEARS."))]] := by
  refine ⟨by decide, by decide⟩

/-- Claim C3, witness: the amended theorem applied to the scenario
document of the spec, where the target does occur exactly. -/
theorem C3_witness :
    DocumentProcessor.replace_text scnDoc0
      (str "three years") (str "two (2) years") =
    DocumentProcessor.replace_text_chunked scnDoc0
      (str "three years") (str "two (2) years") :=
  C3_chunked_agrees_on_exact_match _ _ _ (by decide)

/-! ## Claim C5 -/

/-- Claim C5, counterexample: a modification whose target is the EXACT
label `"For: Company"` is nonetheless dropped by the validator when its
replacement contains a month name (here a firm called "January Capital
LLC"): the date-placeholder rule fires because the target has no comma
and no date label, so the batch filter removes it, refuting the claim
that such modifications are always kept. -/
theorem C5_counterexample :
    rejectFilter [⟨some (str "TEXT_REPLACE"), some (str "signature_block"),
      some (str "For: Company"), some (str "January Capital LLC")⟩] = [] := by
  decide

/-- Claim C5, amended: in every batch, a modification whose target
contains the defining context `(the "Company")` is dropped; a
modification whose target is exactly `"For: Company"` is kept PROVIDED
its replacement contains no month name (otherwise the date-placeholder
rule drops it); and the filter output is a sublist of the input, so the
relative order of the surviving modifications is preserved. -/
theorem C5_company_validation (mods : List PyMod) :
    (∀ m ∈ mods, containsSub m.cur (str "(the \"Company\")") = true →
      m ∉ rejectFilter mods) ∧
    (∀ m ∈ mods, m.current_text = some (str "For: Company") →
      months.any (fun mo => containsSub m.new mo) = false →
      m ∈ rejectFilter mods) ∧
    List.Sublist (rejectFilter mods) mods := by
  refine ⟨?_, ?_, List.filter_sublist mods⟩
  · intro m hm hctx
    have hcompany : companyReject m.cur = true := by
      have hinv : invalidContexts.any (fun ctx => containsSub m.cur ctx) = true :=
        List.any_eq_true.mpr ⟨str "(the \"Company\")",
          List.mem_cons_self _ _, hctx⟩
      rw [companyReject, containsSub_trans hctx (by decide)]
      simp [hinv]
    intro hmem
    have := (List.mem_filter.mp hmem).2
    simp [hcompany] at this
  · intro m hm hcur hmonth
    have hc : m.cur = str "For: Company" := by simp [PyMod.cur, hcur]
    apply List.mem_filter.mpr
    refine ⟨hm, ?_⟩
    have hd : dateReject m.cur m.new = false := by
      rw [dateReject, hmonth]
      simp
    have hco : companyReject m.cur = false := by
      rw [hc]
      decide
    simp [hd, hco]

/-- Claim C5, witness: the amended theorem applied to a concrete batch of
one defining-context modification and one exact-label modification. -/
theorem C5_witness :
    (⟨some (str "TEXT_REPLACE"), some (str "parties"),
        some (str "(the \"Company\") means the disclosing party"),
        some (str "Acme LLC")⟩ : PyMod) ∉
      rejectFilter
        [⟨some (str "TEXT_REPLACE"), some (str "parties"),
          some (str "(the \"Company\") means the disclosing party"),
          some (str "Acme LLC")⟩,
         ⟨some (str "TEXT_REPLACE"), some (str "signature_block"),
          some (str "For: Company"), some (str "For: Acme LLC")⟩] ∧
    (⟨some (str "TEXT_REPLACE"), some (str "signature_block"),
        some (str "For: Company"), some (str "For: Acme LLC")⟩ : PyMod) ∈
      rejectFilter
        [⟨some (str "TEXT_REPLACE"), some (str "parties"),
          some (str "(the \"Company\") means the disclosing party"),
          some (str "Acme LLC")⟩,
         ⟨some (str "TEXT_REPLACE"), some (str "signature_block"),
          some (str "For: Company"), some (str "For: Acme LLC")⟩] :=
  ⟨(C5_company_validation _).1 _ (by simp) (by decide),
   (C5_company_validation _).2.1 _ (by simp) rfl (by decide)⟩

/-! ## Claim C6 -/

/-- Claim C6, counterexample: the scenario given by the spec itself.  The
document already reads "two (2) years" and the replacement text is
the spelled-out "two (2) years", yet the suppression filter — which only
matches the numeral forms "2 (2) years" / "2 years" inside the
replacement — keeps the modification instead of dropping it. -/
theorem C6_counterexample :
    termStage 2 (str "Confidentiality obligations survive for two (2) years.")
      [⟨some (str "TEXT_REPLACE"), some (str "term"),
        some (str "three years"), some (str "two (2) years")⟩] =
    [⟨some (str "TEXT_REPLACE"), some (str "term"),
      some (str "three years"), some (str "two (2) years")⟩] := by
  decide

/-- Claim C6, amended: when the document already contains the requested
duration in any checked form, the term stage synthesises nothing (its
output is a sublist of its input) and drops exactly those term
modifications whose replacement contains a NUMERAL form of the target
duration ("2 (2) years" or "2 years", case-insensitively); a term
modification whose replacement spells the duration out in words is not
dropped by this validator stage — it survives into the filter output. -/
theorem C6_duplicate_suppression_numeral_only (n : Nat) (docText : Text)
    (mods : List PyMod) (h : docAlreadyHasTarget n docText = true) :
    List.Sublist (termStage n docText mods) mods ∧
    ∀ m ∈ mods, m.sectionTag = some (str "term") →
      (containsSub (toLowerT m.new) (toLowerT (targetYearsText n)) = true ∨
       containsSub (toLowerT m.new) (toLowerT (targetYearsSimple n)) = true) →
      m ∉ termStage n docText mods := by
  rw [termStage, if_pos h]
  refine ⟨List.filter_sublist mods, ?_⟩
  intro m hm hsec hnum hmem
  have hpred := (List.mem_filter.mp hmem).2
  rcases hnum with hnum | hnum <;> simp [hsec, hnum] at hpred

/-- Claim C6, witness: the amended theorem applied to a concrete
numeral-form term modification against a document that already carries
the target duration. -/
theorem C6_witness :
    (⟨some (str "TEXT_REPLACE"), some (str "term"),
        some (str "three years"), some (str "2 (2) years")⟩ : PyMod) ∉
      termStage 2 (str "Confidentiality obligations survive for two (2) years.")
        [⟨some (str "TEXT_REPLACE"), some (str "term"),
          some (str "three years"), some (str "2 (2) years")⟩] :=
  (C6_duplicate_suppression_numeral_only 2 _ _ (by decide)).2 _ (by simp)
    rfl (Or.inl (by decide))

/-! ## Claim C9 -/

/-- Claim C9, confirmed: every modification that survives the validator
and whose replacement contains a month name has a target that is either a
pure short date pattern (under 25 characters stripped, exactly one comma,
no forbidden word) or carries an explicit `Date:`/`Dated:` label; a
month-bearing replacement aimed at any other target is rejected. -/
theorem C9_date_rule (mods : List PyMod) (m : PyMod)
    (hmem : m ∈ rejectFilter mods)
    (hmonth : months.any (fun mo => containsSub m.new mo) = true) :
    isPureDate m.cur = true ∨ hasDateLabel m.cur = true := by
  have hpred := (List.mem_filter.mp hmem).2
  have hd : dateReject m.cur m.new = false := by
    revert hpred
    cases hdr : dateReject m.cur m.new <;> simp
  rw [dateReject, hmonth] at hd
  cases hp : isPureDate m.cur with
  | true => exact Or.inl rfl
  | false =>
    cases hl : hasDateLabel m.cur with
    | true => exact Or.inr rfl
    | false => rw [hp, hl] at hd; simp at hd

/-- Claim C9, witness: the theorem applied to a surviving pure-date
modification. -/
theorem C9_witness :
    isPureDate (PyMod.cur ⟨some (str "TEXT_REPLACE"), some (str "date"),
      some (str "September __, 2025"), some (str "September 30, 2025")⟩) = true ∨
    hasDateLabel (PyMod.cur ⟨some (str "TEXT_REPLACE"), some (str "date"),
      some (str "September __, 2025"), some (str "September 30, 2025")⟩) = true :=
  C9_date_rule
    [⟨some (str "TEXT_REPLACE"), some (str "date"),
      some (str "September __, 2025"), some (str "September 30, 2025")⟩]
    _ (by decide) (by decide)

/-! ## Claim C7 -/

/-- Claim C7, code-bug evaluation: in
`DocumentProcessor.apply_accepted_changes` the flattened paragraph list
(body paragraphs, then table-cell paragraphs) is walked, but for any
paragraph that does not contain the target exactly the code calls
`self._find_text_with_whitespace`, a method that exists only on
`AIRedliningService`, so an `AttributeError` aborts the change.  Here the
second body paragraph contains the target verbatim, yet the change is
abandoned at the first paragraph and the document is returned unchanged
with `applied = false`. -/
theorem C7_accepted_change_aborts :
    DocumentProcessor.apply_accepted_change
      (allParagraphsFlat
        [Block.para [Node.run (mkRun (str "This Agreement is made by the parties."))],
         Block.para [Node.run (mkRun (str "For: Company"))]])
      (str "For: Company") (str "For: Acme LLC") =
    (allParagraphsFlat
        [Block.para [Node.run (mkRun (str "This Agreement is made by the parties."))],
         Block.para [Node.run (mkRun (str "For: Company"))]], false) ∧
    containsSub (paraText [Node.run (mkRun (str "For: Company"))])
      (str "For: Company") = true := by
  refine ⟨by decide, by decide⟩

/-! ## Claim C10 -/

/-- Claim C10, confirmed: batch processing never aborts on a failing or
raising modification.  First, processing a list decomposes around any
position: every modification after `m` is still applied to whatever state
`m` left behind.  Second, a malformed `TEXT_REPLACE` modification — one
whose `current_text` key is missing, so the subscript lookup raises
`KeyError`, caught by the per-modification handler — leaves the
document unchanged instead of propagating the error. -/
theorem C10_batch_continues (doc : List Paragraph) (pre : List PyMod)
    (m : PyMod) (rest : List PyMod) :
    DocumentProcessor.apply_modifications doc (pre ++ m :: rest) =
      DocumentProcessor.apply_modifications
        (DocumentProcessor.apply_mod_step
          (DocumentProcessor.apply_modifications doc pre) m) rest ∧
    (m.current_text = none → m.type = some (str "TEXT_REPLACE") →
      DocumentProcessor.apply_mod_step
        (DocumentProcessor.apply_modifications doc pre) m =
      DocumentProcessor.apply_modifications doc pre) := by
  constructor
  · simp [DocumentProcessor.apply_modifications, List.foldl_append]
  · intro h1 h2
    rw [DocumentProcessor.apply_mod_step, if_pos h2, h1]

/-- Claim C10, witness: the theorem applied to a concrete batch: a
malformed replace (missing `current_text`) followed by an insert; the
insert is still applied and the malformed entry is a no-op. -/
theorem C10_witness :
    DocumentProcessor.apply_modifications scnDoc0
      [⟨some (str "TEXT_REPLACE"), none, none, some (str "x")⟩,
       ⟨some (str "TEXT_INSERT"), none, none, some (str "New clause.")⟩] =
      DocumentProcessor.apply_modifications
        (DocumentProcessor.apply_mod_step
          (DocumentProcessor.apply_modifications scnDoc0 [])
          ⟨some (str "TEXT_REPLACE"), none, none, some (str "x")⟩)
        [⟨some (str "TEXT_INSERT"), none, none, some (str "New clause.")⟩] ∧
    DocumentProcessor.apply_mod_step
        (DocumentProcessor.apply_modifications scnDoc0 [])
        ⟨some (str "TEXT_REPLACE"), none, none, some (str "x")⟩ =
      DocumentProcessor.apply_modifications scnDoc0 [] :=
  ⟨(C10_batch_continues scnDoc0 []
      ⟨some (str "TEXT_REPLACE"), none, none, some (str "x")⟩
      [⟨some (str "TEXT_INSERT"), none, none, some (str "New clause.")⟩]).1,
   (C10_batch_continues scnDoc0 []
      ⟨some (str "TEXT_REPLACE"), none, none, some (str "x")⟩
      [⟨some (str "TEXT_INSERT"), none, none, some (str "New clause.")⟩]).2
     rfl rfl⟩

/-! ## Claim C4: whitespace variants -/

theorem matchToks_nil (t : Text) :
    AIRedliningService.matchToks [] t = some 0 := by
  simp [AIRedliningService.matchToks]

theorem matchToks_lit_nil (c : Char) (ps : List AIRedliningService.PTok) :
    AIRedliningService.matchToks (AIRedliningService.PTok.lit c :: ps) [] = none := by
  simp [AIRedliningService.matchToks]

theorem matchToks_ws_nil (ps : List AIRedliningService.PTok) :
    AIRedliningService.matchToks (AIRedliningService.PTok.ws :: ps) [] = none := by
  simp [AIRedliningService.matchToks]

theorem matchToks_lit_cons (c d : Char) (ps : List AIRedliningService.PTok)
    (t : Text) :
    AIRedliningService.matchToks (AIRedliningService.PTok.lit c :: ps) (d :: t) =
      if c = d then (AIRedliningService.matchToks ps t).map (· + 1) else none := by
  rw [AIRedliningService.matchToks.eq_def]

theorem matchToks_ws_cons (d : Char) (ps : List AIRedliningService.PTok)
    (t : Text) :
    AIRedliningService.matchToks (AIRedliningService.PTok.ws :: ps) (d :: t) =
      if isPySpace d then
        match AIRedliningService.matchToks (AIRedliningService.PTok.ws :: ps) t with
        | some n => some (n + 1)
        | none => (AIRedliningService.matchToks ps t).map (· + 1)
      else none := by
  rw [AIRedliningService.matchToks.eq_def]

/-- The flexible-whitespace matcher only matches whitespace variants of
the search text (soundness of `matchToks` for single-space targets). -/
theorem matchToks_sound :
    ∀ (t target : Text) (n : Nat),
      (∀ c ∈ target, isPySpace c = true → c = ' ') →
      AIRedliningService.matchToks (AIRedliningService.toToks target) t = some n →
      WsVar target (t.take n) := by
  intro t
  induction t with
  | nil =>
    intro target n hsp h
    cases target with
    | nil =>
      simp only [AIRedliningService.toToks, List.map_nil,
        AIRedliningService.matchToks, Option.some_inj] at h
      subst h
      exact WsVar.nil
    | cons c ts =>
      exfalso
      by_cases hc : c = ' ' <;>
        simp [AIRedliningService.toToks, AIRedliningService.matchToks, hc] at h
  | cons d t' ih =>
    intro target n hsp h
    cases target with
    | nil =>
      simp only [AIRedliningService.toToks, List.map_nil,
        AIRedliningService.matchToks, Option.some_inj] at h
      subst h
      exact WsVar.nil
    | cons c ts =>
      have hsp' : ∀ x ∈ ts, isPySpace x = true → x = ' ' :=
        fun x hx => hsp x (List.mem_cons_of_mem c hx)
      by_cases hc : c = ' '
      · subst hc
        simp only [AIRedliningService.toToks, List.map_cons, reduceIte] at h ⊢
        rw [matchToks_ws_cons] at h
        by_cases hd : isPySpace d = true
        · rw [if_pos hd] at h
          cases hA : AIRedliningService.matchToks
              (AIRedliningService.PTok.ws :: ts.map (fun c =>
                if c = ' ' then AIRedliningService.PTok.ws
                else AIRedliningService.PTok.lit c)) t' with
          | some m =>
            rw [hA, Option.some_inj] at h
            subst h
            have hws : WsVar (' ' :: ts) (t'.take m) := by
              have := ih (' ' :: ts) m hsp
              simp only [AIRedliningService.toToks, List.map_cons, reduceIte] at this
              exact this hA
            rw [List.take_cons (by omega)]
            simp only [Nat.add_sub_cancel]
            generalize heq : t'.take m = vm at hws
            cases hws with
            | lit hlit _ => simp [isPySpace] at hlit
            | gap hne hall hsub =>
              rename_i v w
              have : d :: (w ++ v) = (d :: w) ++ v := rfl
              rw [this]
              exact WsVar.gap (by simp)
                (by intro x hx
                    rcases List.mem_cons.mp hx with rfl | hx
                    · exact hd
                    · exact hall x hx) hsub
          | none =>
            rw [hA] at h
            cases hB : AIRedliningService.matchToks (AIRedliningService.toToks ts) t' with
            | none =>
              simp only [AIRedliningService.toToks] at hB
              rw [hB] at h
              cases h
            | some m =>
              simp only [AIRedliningService.toToks] at hB
              rw [hB] at h
              simp only [Option.map_some', Option.some_inj] at h
              subst h
              rw [List.take_cons (by omega)]
              simp only [Nat.add_sub_cancel]
              have hsub := ih ts m hsp' hB
              have : d :: t'.take m = [d] ++ t'.take m := rfl
              rw [this]
              exact WsVar.gap (by simp) (by simpa using hd) hsub
        · rw [if_neg hd] at h
          cases h
      · have hcf : isPySpace c = false := by
          by_cases hpc : isPySpace c = true
          · exact absurd (hsp c (List.mem_cons_self _ _) hpc) hc
          · simpa using hpc
        simp only [AIRedliningService.toToks, List.map_cons, if_neg hc] at h
        rw [matchToks_lit_cons] at h
        by_cases hcd : c = d
        · rw [if_pos (by exact_mod_cast hcd)] at h
          cases hB : AIRedliningService.matchToks (AIRedliningService.toToks ts) t' with
          | none =>
            simp only [AIRedliningService.toToks] at hB
            rw [hB] at h
            cases h
          | some m =>
            simp only [AIRedliningService.toToks] at hB
            rw [hB] at h
            simp only [Option.map_some', Option.some_inj] at h
            subst h
            rw [List.take_cons (by omega)]
            simp only [Nat.add_sub_cancel]
            subst hcd
            exact WsVar.lit hcf (ih ts m hsp' hB)
        · rw [if_neg (by exact_mod_cast hcd)] at h
          cases h

/-- If a whitespace variant of the search text is a prefix of `t`, the
greedy matcher succeeds at `t` (completeness of `matchToks`). -/
theorem matchToks_complete :
    ∀ {target v : Text}, WsVar target v →
      ∀ t : Text, (∃ rest, t = v ++ rest) →
        (AIRedliningService.matchToks
          (AIRedliningService.toToks target) t).isSome = true := by
  intro target v hvar
  induction hvar with
  | nil =>
    intro t _
    simp [AIRedliningService.toToks, matchToks_nil]
  | lit hc hsub ih =>
    rename_i c ts vs
    rintro tt ⟨rest, rfl⟩
    have hcs : c ≠ ' ' := by
      intro hs
      rw [hs] at hc
      simp [isPySpace] at hc
    simp only [AIRedliningService.toToks, List.map_cons, if_neg hcs,
      List.cons_append]
    rw [matchToks_lit_cons, if_pos rfl]
    have hsome := ih (vs ++ rest) ⟨rest, rfl⟩
    simp only [AIRedliningService.toToks] at hsome
    cases hB : AIRedliningService.matchToks
        (ts.map (fun x => if x = ' ' then AIRedliningService.PTok.ws
          else AIRedliningService.PTok.lit x)) (vs ++ rest) with
    | none => rw [hB] at hsome; cases hsome
    | some m => simp
  | gap hw hall hsub ih =>
    rename_i ts vs w
    rintro tt ⟨rest, rfl⟩
    revert hw hall
    induction w with
    | nil =>
      intro hw _
      exact absurd rfl hw
    | cons d w' ihw =>
      intro _ hall
      have hd : isPySpace d = true := hall d (List.mem_cons_self _ _)
      simp only [List.cons_append, AIRedliningService.toToks, List.map_cons,
        reduceIte]
      rw [matchToks_ws_cons, if_pos hd]
      cases hA : AIRedliningService.matchToks
          (AIRedliningService.PTok.ws :: ts.map (fun x =>
            if x = ' ' then AIRedliningService.PTok.ws
            else AIRedliningService.PTok.lit x)) ((w' ++ vs) ++ rest) with
      | some m => simp
      | none =>
        by_cases hw' : w' = []
        · subst hw'
          have hsome := ih (vs ++ rest) ⟨rest, rfl⟩
          simp only [AIRedliningService.toToks] at hsome
          simp only [List.nil_append]
          cases hB : AIRedliningService.matchToks
              (ts.map (fun x => if x = ' ' then AIRedliningService.PTok.ws
                else AIRedliningService.PTok.lit x)) (vs ++ rest) with
          | none => rw [hB] at hsome; cases hsome
          | some m => simp
        · exfalso
          have hs := ihw hw' (fun c hc => hall c (List.mem_cons_of_mem d hc))
          simp only [AIRedliningService.toToks, List.map_cons, reduceIte,
            List.cons_append] at hs
          rw [hA] at hs
          cases hs

/-- Soundness of the leftmost search: a returned match is a
take-of-drop slice on which the matcher succeeded. -/
theorem searchPat_sound :
    ∀ (t : Text) (toks : List AIRedliningService.PTok) (r : Text),
      AIRedliningService.searchPat toks t = some r →
      ∃ k n, AIRedliningService.matchToks toks (t.drop k) = some n ∧
        r = (t.drop k).take n := by
  intro t
  induction t with
  | nil =>
    intro toks r h
    rw [AIRedliningService.searchPat] at h
    cases hm : AIRedliningService.matchToks toks [] with
    | none => rw [hm] at h; cases h
    | some n =>
      rw [hm] at h
      simp only [Option.some_inj] at h
      exact ⟨0, n, by simpa using hm, by simpa using h.symm⟩
  | cons c t' ih =>
    intro toks r h
    rw [AIRedliningService.searchPat] at h
    cases hm : AIRedliningService.matchToks toks (c :: t') with
    | some n =>
      rw [hm] at h
      simp only [Option.some_inj] at h
      exact ⟨0, n, by simpa using hm, by simpa using h.symm⟩
    | none =>
      rw [hm] at h
      obtain ⟨k, n, hkn, hr⟩ := ih toks r h
      exact ⟨k + 1, n, by simpa using hkn, by simpa using hr⟩

/-- Completeness of the leftmost search: if the matcher succeeds at any
position, the search returns a match. -/
theorem searchPat_complete :
    ∀ (t : Text) (toks : List AIRedliningService.PTok) (k : Nat),
      (AIRedliningService.matchToks toks (t.drop k)).isSome = true →
      (AIRedliningService.searchPat toks t).isSome = true := by
  intro t
  induction t with
  | nil =>
    intro toks k h
    simp only [List.drop_nil] at h
    rw [AIRedliningService.searchPat]
    cases hm : AIRedliningService.matchToks toks [] with
    | none => rw [hm] at h; cases h
    | some n => simp
  | cons c t' ih =>
    intro toks k h
    rw [AIRedliningService.searchPat]
    cases hm : AIRedliningService.matchToks toks (c :: t') with
    | some n => simp
    | none =>
      cases k with
      | zero =>
        rw [List.drop_zero, hm] at h
        cases h
      | succ k' =>
        simp only [List.drop_succ_cons] at h
        exact ih toks k' h

theorem wsVar_self {target : Text}
    (hsp : ∀ c ∈ target, isPySpace c = true → c = ' ') :
    WsVar target target := by
  induction target with
  | nil => exact WsVar.nil
  | cons c ts ih =>
    have hsp' : ∀ x ∈ ts, isPySpace x = true → x = ' ' :=
      fun x hx => hsp x (List.mem_cons_of_mem c hx)
    by_cases hc : c = ' '
    · subst hc
      exact WsVar.gap (w := [' ']) (by simp) (by simp [isPySpace]) (ih hsp')
    · refine WsVar.lit ?_ (ih hsp')
      by_cases hpc : isPySpace c = true
      · exact absurd (hsp c (List.mem_cons_self _ _) hpc) hc
      · simpa using hpc

theorem wsVar_spacesToTabs {target : Text}
    (hsp : ∀ c ∈ target, isPySpace c = true → c = ' ') :
    WsVar target (spacesToTabs target) := by
  induction target with
  | nil => exact WsVar.nil
  | cons c ts ih =>
    have hsp' : ∀ x ∈ ts, isPySpace x = true → x = ' ' :=
      fun x hx => hsp x (List.mem_cons_of_mem c hx)
    by_cases hc : c = ' '
    · subst hc
      simp only [spacesToTabs, List.map_cons, reduceIte]
      exact WsVar.gap (w := ['\t']) (by simp) (by simp [isPySpace]) (ih hsp')
    · simp only [spacesToTabs, List.map_cons, if_neg hc]
      refine WsVar.lit ?_ (ih hsp')
      by_cases hpc : isPySpace c = true
      · exact absurd (hsp c (List.mem_cons_self _ _) hpc) hc
      · simpa using hpc

theorem wsVar_spacesToDouble {target : Text}
    (hsp : ∀ c ∈ target, isPySpace c = true → c = ' ') :
    WsVar target (spacesToDouble target) := by
  induction target with
  | nil => exact WsVar.nil
  | cons c ts ih =>
    have hsp' : ∀ x ∈ ts, isPySpace x = true → x = ' ' :=
      fun x hx => hsp x (List.mem_cons_of_mem c hx)
    by_cases hc : c = ' '
    · subst hc
      simp only [spacesToDouble, List.flatMap_cons, reduceIte]
      exact WsVar.gap (w := [' ', ' ']) (by simp) (by simp [isPySpace])
        (ih hsp')
    · simp only [spacesToDouble, List.flatMap_cons, if_neg hc,
        List.singleton_append]
      refine WsVar.lit ?_ (ih hsp')
      by_cases hpc : isPySpace c = true
      · exact absurd (hsp c (List.mem_cons_self _ _) hpc) hc
      · simpa using hpc

theorem collapseWsGo_true_of_head (rep : Char) (ts : Text)
    (hhead : ∀ d ts', ts = d :: ts' → isPySpace d = false) :
    collapseWsGo rep true ts = collapseWsGo rep false ts := by
  cases ts with
  | nil => rfl
  | cons d ts' =>
    have hd := hhead d ts' rfl
    simp [collapseWsGo, hd]

theorem wsVar_wsRunsToTab {target : Text}
    (hsp : ∀ c ∈ target, isPySpace c = true → c = ' ')
    (hnd : noDoubleSpace target = true) :
    WsVar target (wsRunsToTab target) := by
  rw [wsRunsToTab]
  induction target with
  | nil => exact WsVar.nil
  | cons c ts ih =>
    have hsp' : ∀ x ∈ ts, isPySpace x = true → x = ' ' :=
      fun x hx => hsp x (List.mem_cons_of_mem c hx)
    have hnd' : noDoubleSpace ts = true := by
      cases ts with
      | nil => rfl
      | cons d ts' =>
        have : noDoubleSpace (c :: d :: ts') = true := hnd
        simp only [noDoubleSpace, Bool.and_eq_true] at this
        exact this.2
    by_cases hc : c = ' '
    · subst hc
      simp only [collapseWsGo, isPySpace, reduceIte, Bool.true_or]
      have hts : collapseWsGo '\t' true ts = collapseWsGo '\t' false ts := by
        apply collapseWsGo_true_of_head
        intro d ts' hts
        subst hts
        have : noDoubleSpace (' ' :: d :: ts') = true := hnd
        simp only [noDoubleSpace, Bool.and_eq_true, Bool.not_eq_true',
          Bool.and_eq_false_iff] at this
        have hd' : d ≠ ' ' := by
          rcases this.1 with h | h
          · simp at h
          · simpa using h
        by_cases hpd : isPySpace d = true
        · exact absurd (hsp' d (List.mem_cons_self _ _) hpd) hd'
        · simpa using hpd
      rw [hts]
      exact WsVar.gap (w := ['\t']) (by simp) (by simp [isPySpace])
        (ih hsp' hnd')
    · have hcf : isPySpace c = false := by
        by_cases hpc : isPySpace c = true
        · exact absurd (hsp c (List.mem_cons_self _ _) hpc) hc
        · simpa using hpc
      simp only [collapseWsGo, hcf, Bool.false_eq_true, if_false]
      exact WsVar.lit hcf (ih hsp' hnd')

/-- Claim C4, confirmed: for a target whose whitespace consists of single
spaces (such as `"For: Company"`), whenever the paragraph text contains
any whitespace variant of the target — e.g. `"For:\tCompany"` with a real
tab — `_find_text_with_whitespace` succeeds and the recovered text is
itself a substring of the paragraph that is a true whitespace variant of
the target, i.e. it carries the actual whitespace characters
(the true tab), not a reconstructed space. -/
theorem C4_whitespace_variant_recovered (ptext target v : Text)
    (hsp : ∀ c ∈ target, isPySpace c = true → c = ' ')
    (hnd : noDoubleSpace target = true)
    (hvar : WsVar target v)
    (hinf : containsSub ptext v = true) :
    ∃ r, AIRedliningService.find_text_with_whitespace ptext target = some r ∧
      containsSub ptext r = true ∧ WsVar target r := by
  rw [AIRedliningService.find_text_with_whitespace]
  by_cases h1 : containsSub ptext target = true
  · exact ⟨target, by rw [if_pos h1], h1, wsVar_self hsp⟩
  · rw [if_neg h1]
    cases hfind : (AIRedliningService.wsVariations target).find?
        (fun v' => containsSub ptext v') with
    | some v' =>
      refine ⟨v', rfl, List.find?_some hfind, ?_⟩
      have hv'mem := List.mem_of_find?_eq_some hfind
      simp only [AIRedliningService.wsVariations, List.mem_cons,
        List.mem_singleton, List.not_mem_nil, or_false] at hv'mem
      rcases hv'mem with rfl | rfl | rfl
      · exact wsVar_spacesToTabs hsp
      · exact wsVar_spacesToDouble hsp
      · exact wsVar_wsRunsToTab hsp hnd
    | none =>
      obtain ⟨x, y, hxy⟩ := containsSub_decomp hinf
      have hdropx : ptext.drop x.length = v ++ y := by
        rw [hxy, List.append_assoc, List.drop_left]
      have hm : (AIRedliningService.matchToks
          (AIRedliningService.toToks target)
          (ptext.drop x.length)).isSome = true := by
        rw [hdropx]
        exact matchToks_complete hvar (v ++ y) ⟨y, rfl⟩
      have hs := searchPat_complete ptext _ x.length hm
      obtain ⟨r, hr⟩ := Option.isSome_iff_exists.mp hs
      obtain ⟨k, n, hkn, hrkn⟩ := searchPat_sound ptext _ r hr
      refine ⟨r, hr, ?_, ?_⟩
      · rw [hrkn]
        exact containsSub_slice ptext k n
      · rw [hrkn]
        exact matchToks_sound _ target n hsp hkn

/-- Claim C4, witness: the theorem applied to the spec scenario — target
`"For: Company"`, paragraph text `"For:\tCompany"` — together with the
direct evaluation showing the recovered text is exactly the
tab-containing original substring. -/
theorem C4_witness :
    (∃ r, AIRedliningService.find_text_with_whitespace
        (str "For:\tCompany") (str "For: Company") = some r ∧
      containsSub (str "For:\tCompany") r = true ∧
      WsVar (str "For: Company") r) ∧
    AIRedliningService.find_text_with_whitespace
        (str "For:\tCompany") (str "For: Company") =
      some (str "For:\tCompany") :=
  ⟨C4_whitespace_variant_recovered (str "For:\tCompany") (str "For: Company")
      (str "For:\tCompany") (by decide) (by decide)
      ((by decide : spacesToTabs (str "For: Company") = str "For:\tCompany") ▸
        wsVar_spacesToTabs (by decide))
      (by decide),
   by decide⟩
